import Mathlib

set_option maxHeartbeats 1000000

/-!
Verification of the wdl-lint fix-application engine (`wdl-lint/src/fix.rs`) and
the ShellCheck external-checker rule (`wdl-lint/src/rules/shellcheck.rs`).

Strings are modelled as `List Char` (the code operates on byte/char offsets of
Rust `String`s; all inputs of interest are ASCII so the two coincide).

The `ftree::FenwickTree<i32>` used by the `Fixer` is modelled by the abstract
sequence of its slot values (`List Int`), with

* `prefix_sum(i, 0)` = the sum of the slots at indices `0 .. i` (exclusive of
  `i`), and
* `add_at(i, d)` = point update of slot `i`, a silent no-op when `i` is out of
  range.

Both facts about the external crate are pinned down by the repository's own
`Fixer` tests: `test_fixer_indel` only passes with the exclusive prefix sum
(an inclusive sum would place the insertion at index 13 instead of 18), and
`test_fixer_insertion` records a delta at slot `len + 1`, which must be a
silent no-op for the test to pass.
-/

/-- An insertion point (`InsertionPoint` in fix.rs). -/
inductive InsertionPoint where
  /-- Insert immediately before a specified region. -/
  | BeforeStart
  /-- Insert immediately after a specified region. -/
  | AfterEnd
deriving DecidableEq

/-- A replacement to be applied to a String (`Replacement` in fix.rs).
The Rust field `end` is a Lean keyword, so it is named `endPos` here;
field `replacement` is the text to insert. -/
structure Replacement where
  start : Nat
  endPos : Nat
  insertionPoint : InsertionPoint
  replacement : List Char
  precedence : Nat
deriving DecidableEq

/-- Point update of the modelled Fenwick tree: `ftree`'s `add_at`.
`List.set` is a no-op on an out-of-range index, exactly like `add_at`. -/
def addAt (t : List Int) (i : Nat) (d : Int) : List Int :=
  t.set i (t.getD i 0 + d)

/-- Exclusive prefix sum of the modelled Fenwick tree: `ftree`'s
`prefix_sum(i, 0)`, the sum of slots `0 .. i` (exclusive). -/
def prefixSum (t : List Int) (i : Nat) : Int :=
  (t.take i).sum

/-- The `Fixer` of fix.rs: the string being modified plus the Fenwick tree
tracking modifications. -/
structure Fixer where
  value : List Char
  tree : List Int
deriving DecidableEq

/-- Model of `Fixer::new`: tree of `value.len() + 1` zero slots. -/
def Fixer.new (value : List Char) : Fixer :=
  { value := value, tree := List.replicate (value.length + 1) 0 }

/-- Model of `Fixer::transform`: prefix sum of the index plus the index.
Modelled with an `Int` result; the Rust code panics when the result does not
fit in `usize`, i.e. when it would be negative. -/
def Fixer.transform (f : Fixer) (index : Nat) : Int :=
  (index : Int) + prefixSum f.tree index

/-- The `shift` recorded by `Fixer::apply_replacement`:
`replacement.len() - (end - start)` (the subtraction `end - start` is a `usize`
subtraction in Rust, hence the truncating `Nat` subtraction here). -/
def deltaOf (r : Replacement) : Int :=
  (r.replacement.length : Int) - ((r.endPos - r.start : Nat) : Int)

/-- The `insert_at` boundary chosen by `Fixer::apply_replacement`:
`start` for `BeforeStart`, `end + 1` for `AfterEnd`. -/
def recordedBoundary (r : Replacement) : Nat :=
  match r.insertionPoint with
  | InsertionPoint.BeforeStart => r.start
  | InsertionPoint.AfterEnd => r.endPos + 1

/-- Model of `Fixer::apply_replacement`: translate the original bounds through the
tree, record the shift at the chosen boundary, and splice the current value. -/
def Fixer.applyReplacement (f : Fixer) (rep : Replacement) : Fixer :=
  { value :=
      f.value.take (f.transform rep.start).toNat ++ rep.replacement ++
        f.value.drop (f.transform rep.endPos).toNat,
    tree := addAt f.tree (recordedBoundary rep) (deltaOf rep) }

/-- Stable insertion used to model `Vec::sort_by_key` (a stable ascending
sort): insert `r` before the first element whose precedence is `≥` it. -/
def orderedInsert (r : Replacement) : List Replacement → List Replacement
  | [] => [r]
  | s :: rest =>
    if r.precedence ≤ s.precedence then r :: s :: rest
    else s :: orderedInsert r rest

/-- Model of `reps.sort_by_key(|r| r.precedence)`: a stable ascending
insertion sort (the Rust sort is stable by contract). -/
def sortByPrecedence : List Replacement → List Replacement
  | [] => []
  | r :: rest => orderedInsert r (sortByPrecedence rest)

/-- The order in which `Fixer::apply_replacements` applies its argument:
sort ascending by precedence (stable), then iterate in reverse. -/
def appliedOrder (reps : List Replacement) : List Replacement :=
  (sortByPrecedence reps).reverse

/-- Model of `Fixer::apply_replacements`. -/
def Fixer.applyReplacements (f : Fixer) (reps : List Replacement) : Fixer :=
  (appliedOrder reps).foldl Fixer.applyReplacement f

/-- Splice `t` into `w` over the index range `[a, b)`. -/
def splice (w : List Char) (a b : Nat) (t : List Char) : List Char :=
  w.take a ++ t ++ w.drop b

/-- Modelled from the spec: the naive reference application of one
replacement directly at its original-text offsets. -/
def naiveApply (v : List Char) (r : Replacement) : List Char :=
  splice v r.start r.endPos r.replacement

/-- Insertion into a list kept in descending order of `start`. -/
def insertStartDesc (r : Replacement) : List Replacement → List Replacement
  | [] => [r]
  | s :: rest =>
    if s.start ≤ r.start then r :: s :: rest
    else s :: insertStartDesc r rest

/-- Sort replacements by original start offset, descending. -/
def sortByStartDesc : List Replacement → List Replacement
  | [] => []
  | r :: rest => insertStartDesc r (sortByStartDesc rest)

/-- Modelled from the spec: the naive reference semantics, "applying them one
by one right-to-left by original start offset". -/
def naiveRightToLeft (v : List Char) (reps : List Replacement) : List Char :=
  (sortByStartDesc reps).foldl naiveApply v

/-- The claim's formula for `transform`: the index plus the sum of the deltas
recorded at boundaries less than OR EQUAL TO the index (tree slots `≤ i`,
i.e. the exclusive prefix sum up to `i + 1`). -/
def claimedTransform (f : Fixer) (index : Nat) : Int :=
  (index : Int) + prefixSum f.tree (index + 1)

/-- Sum of the deltas of the replacements in `rs` whose recorded boundary is
strictly below `i` and lands inside a tree of length `tlen` (an out-of-range
`add_at` is a silent no-op). -/
def sumRecordedBelow (rs : List Replacement) (tlen i : Nat) : Int :=
  ((rs.filter fun r => decide (recordedBoundary r < i ∧ recordedBoundary r < tlen)).map
    deltaOf).sum

/-- Stable descending insertion: insert `r` before the first element whose
precedence is STRICTLY smaller, i.e. after every element with precedence
`≥` its own. -/
def insertByPrecStrict (r : Replacement) : List Replacement → List Replacement
  | [] => [r]
  | s :: rest =>
    if s.precedence < r.precedence then r :: s :: rest
    else s :: insertByPrecStrict r rest

/-- Stable descending sort by precedence: processes the input left to right,
so elements of equal precedence end up in input order. -/
def stableDescSort (l : List Replacement) : List Replacement :=
  l.foldl (fun acc r => insertByPrecStrict r acc) []

/-- Two replacements are separated when they are ordered as intervals: the
one with the strictly smaller start offset ends at or before the other
starts. This is stronger than mere set-disjointness of the half-open ranges
with distinct starts: it also rules out a zero-length insertion lying
strictly inside the other replacement's range (see
`sepa_exclusion_necessary` for why that must be ruled out). -/
def sepa (a b : Replacement) : Prop :=
  (a.endPos ≤ b.start ∧ a.start < b.start) ∨ (b.endPos ≤ a.start ∧ b.start < a.start)

instance : DecidableRel sepa := fun a b => by
  unfold sepa; exact inferInstance

/-- The position a low boundary `p` is carried to by a sequence of edits all
lying at or below it (applied highest first). -/
def shiftPos : List Replacement → Nat → Nat
  | [], p => p
  | x :: rest, p => shiftPos rest (p - (x.endPos - x.start) + x.replacement.length)

/-- Sum of the deltas of the replacements in `A` whose start offset is
strictly below `i`. -/
def sumDeltasBelow (A : List Replacement) (i : Nat) : Int :=
  ((A.filter fun r => decide (r.start < i)).map deltaOf).sum

/-!
Model of `wdl-lint/src/rules/shellcheck.rs`.

The AST, the subprocess and the `HashMap`/`HashSet` containers are external
to the rule; the handler is modelled as a function of the data the rule
extracts from them: the probe result (`program_exists`), the command keyword
span, the task declarations, the result of `sanitize_command`, the line map
the handler builds, and the exit status / deserialized output the
`shellcheck` subprocess would produce.  `Diagnostics::exceptable_add` is
modelled as appending to the collection (the suppression logic lives in
`wdl_ast`, outside this crate).  A Rust panic (the `expect` on the line-map
lookup) is modelled by an `Option.none` result of the handler; a panic kills
the process, so later visits are not modelled past it.
-/
/-- A source span (offset, length), as in `wdl_ast::Span`. -/
structure Span where
  start : Nat
  len : Nat
deriving DecidableEq

/-- Severity of a diagnostic (only the two used by this rule). -/
inductive Severity where
  | error
  | note
deriving DecidableEq

/-- A diagnostic with one label, as built by this rule. -/
structure Diagnostic where
  severity : Severity
  message : List Char
  labelText : List Char
  labelSpan : Span
  rule : List Char
  fix : List Char
deriving DecidableEq

/-- The identifier of the ShellCheck rule (`ID`). -/
def shellcheckRuleId : List Char := "CommandSectionShellCheck".toList

/-- ShellCheck: var is referenced but not assigned
(`SHELLCHECK_REFERENCED_UNASSIGNED`). -/
def SHELLCHECK_REFERENCED_UNASSIGNED : Nat := 2154

/-- A deserialized ShellCheck comment (`ShellCheckDiagnostic`). -/
structure ShellCheckDiagnostic where
  line : Nat
  endLine : Nat
  column : Nat
  endColumn : Nat
  level : List Char
  code : Nat
  message : List Char
deriving DecidableEq

/-- The failure cases of `run_shellcheck` after the process ran. -/
inductive ScError where
  /-- deserializing STDOUT failed -/
  | deserializeFailure
  /-- an exit code other than 0 or 1 -/
  | unexpectedExitCode (code : Int)
  /-- the process was killed by a signal (`status.code()` is `None`) -/
  | interrupted
deriving DecidableEq

/-- The error text produced by `run_shellcheck` for each failure case. -/
def ScError.render : ScError → List Char
  | ScError.deserializeFailure =>
      "deserializing STDOUT from `shellcheck` process".toList
  | ScError.unexpectedExitCode code =>
      "unexpected `shellcheck` exit code: ".toList ++ (toString code).toList
  | ScError.interrupted =>
      "the `shellcheck` process appears to have been interrupted".toList

/-- The exit-status handling of `run_shellcheck` (lines 119–125): exit code
0 or 1 means success and the stdout is deserialized (`parsed` models the
deserialization result); any other code is an error naming the code; a
missing code means the process was interrupted. -/
def runShellcheckOutcome (status : Option Int)
    (parsed : Option (List ShellCheckDiagnostic)) :
    Except ScError (List ShellCheckDiagnostic) :=
  match status with
  | some code =>
    if code = 0 ∨ code = 1 then
      match parsed with
      | some ds => Except.ok ds
      | none => Except.error ScError.deserializeFailure
    else Except.error (ScError.unexpectedExitCode code)
  | none => Except.error ScError.interrupted

/-- Model of `shellcheck_lint`: the "ShellCheck lint" diagnostic for one comment. -/
def shellcheckLint (c : ShellCheckDiagnostic) (span : Span) : Diagnostic :=
  { severity := Severity.note,
    message := "`shellcheck` reported the following diagnostic".toList,
    labelText := "SC".toList ++ (toString c.code).toList ++ "[".toList ++
      c.level ++ "]: ".toList ++ c.message,
    labelSpan := span,
    rule := shellcheckRuleId,
    fix := "address the diagnostics as recommended in the message".toList }

/-- The diagnostic emitted when the `shellcheck` executable is missing. -/
def missingToolDiag (kw : Span) : Diagnostic :=
  { severity := Severity.error,
    message := "running `shellcheck` on command section".toList,
    labelText := "could not find `shellcheck` executable.".toList,
    labelSpan := kw,
    rule := shellcheckRuleId,
    fix := "install shellcheck or disable this lint.".toList }

/-- The diagnostic emitted when `run_shellcheck` fails. -/
def runErrorDiag (e : ScError) (kw : Span) : Diagnostic :=
  { severity := Severity.error,
    message := "running `shellcheck` on command section".toList,
    labelText := e.render,
    labelSpan := kw,
    rule := shellcheckRuleId,
    fix := "address reported error.".toList }

/-- Rust `message.split_whitespace().next().unwrap_or("")`: the first
whitespace-separated token of a message (empty if there is none). -/
def firstToken (m : List Char) : List Char :=
  (m.dropWhile fun c => c.isWhitespace).takeWhile fun c => !c.isWhitespace

/-- Lookup in the line map (a `HashMap<usize, usize>`, modelled as an
association list with unique keys). -/
def lookupLine : List (Nat × Nat) → Nat → Option Nat
  | [], _ => none
  | (k, v) :: rest, n => if k = n then some v else lookupLine rest n

/-- The filter in the emit loop: a finding survives unless its code is 2154
and the first token of its message is a declared name (task declarations
plus the synthetic placeholder variables). -/
def keepFinding (decls : List (List Char)) (d : ShellCheckDiagnostic) : Bool :=
  !(decide (d.code = SHELLCHECK_REFERENCED_UNASSIGNED) &&
    decls.contains (firstToken d.message))

/-- The span of one emitted finding:
`Span::new(start + column, end_column - column)`. -/
def findingSpan (start : Nat) (d : ShellCheckDiagnostic) : Span :=
  ⟨start + d.column, d.endColumn - d.column⟩

/-- The emit loop over the parsed findings (lines 341–366): skip findings
matching the 2154 filter, look the line up in the line map (`expect`, i.e. a
panic — modelled as `none` — when absent) and emit a `shellcheck_lint`
diagnostic for each survivor.  Returns the list of appended diagnostics. -/
def processFindings (decls : List (List Char)) (lineMap : List (Nat × Nat)) :
    List ShellCheckDiagnostic → Option (List Diagnostic)
  | [] => some []
  | d :: rest =>
    if keepFinding decls d then
      match lookupLine lineMap d.line with
      | none => none
      | some start =>
        (processFindings decls lineMap rest).map
          fun out => shellcheckLint d (findingSpan start d) :: out
    else processFindings decls lineMap rest

/-- The visit reason (`VisitReason`). -/
inductive VisitReason where
  | enter
  | exit
deriving DecidableEq

/-- The process-wide state the handler touches: the `SHELLCHECK_EXISTS`
once-cell (empty, or initialized to a boolean) plus the shared diagnostics
collection. -/
structure ScState where
  shellcheckExists : Option Bool
  diagnostics : List Diagnostic
deriving DecidableEq

/-- Everything one `command_section` visit reads from its environment. -/
structure VisitInput where
  reason : VisitReason
  programExists : Bool
  keywordSpan : Span
  taskDecls : List (List Char)
  sanitizeResult : Option (List Char × List (List Char))
  lineMap : List (Nat × Nat)
  exitStatus : Option Int
  parsedOutput : Option (List ShellCheckDiagnostic)
deriving DecidableEq

/-- The observable outcome of one visit: the new state, whether the external
tool was invoked, whether the availability probe ran, and whether the
missing-tool diagnostic was emitted. -/
structure StepResult where
  state : ScState
  invoked : Bool
  probed : Bool
  emittedMissing : Bool
deriving DecidableEq

/-- The tail of `command_section` after the availability check passed:
gather declarations, sanitize (silently return on `None`), run the tool and
either emit its findings or the run error. -/
def runChecks (st : ScState) (inp : VisitInput) (probed : Bool) :
    Option StepResult :=
  match inp.sanitizeResult with
  | none => some ⟨st, false, probed, false⟩
  | some (_, cmdDecls) =>
    match runShellcheckOutcome inp.exitStatus inp.parsedOutput with
    | Except.ok ds =>
      (processFindings (inp.taskDecls ++ cmdDecls) inp.lineMap ds).map fun out =>
        ⟨⟨st.shellcheckExists, st.diagnostics ++ out⟩, true, probed, false⟩
    | Except.error e =>
      some ⟨⟨st.shellcheckExists, st.diagnostics ++ [runErrorDiag e inp.keywordSpan]⟩,
        true, probed, false⟩

/-- One `command_section` visit (lines 262–381): return on exit, then the
`SHELLCHECK_EXISTS.get_or_init` block (probe once, emit the missing-tool
diagnostic and cache `false` when the executable is absent, skip entirely
when `false` is already cached), then `runChecks`. -/
def commandSection (st : ScState) (inp : VisitInput) : Option StepResult :=
  if inp.reason = VisitReason.exit then some ⟨st, false, false, false⟩
  else
    match st.shellcheckExists with
    | some true => runChecks st inp false
    | some false => some ⟨st, false, false, false⟩
    | none =>
      if inp.programExists then
        runChecks { st with shellcheckExists := some true } inp true
      else
        some ⟨⟨some false, st.diagnostics ++ [missingToolDiag inp.keywordSpan]⟩,
          false, true, true⟩

/-- Run a sequence of visits, counting probes and missing-tool diagnostics;
`none` when some visit panicked. -/
def runVisits : ScState → List VisitInput → Option (ScState × Nat × Nat)
  | st, [] => some (st, 0, 0)
  | st, inp :: rest =>
    match commandSection st inp with
    | none => none
    | some r =>
      (runVisits r.state rest).map fun out =>
        (out.1, (if r.probed then 1 else 0) + out.2.1,
          (if r.emittedMissing then 1 else 0) + out.2.2)

/-- The first visit that is not an exit visit. -/
def firstEnter (inputs : List VisitInput) : Option VisitInput :=
  inputs.find? fun i => decide (i.reason = VisitReason.enter)

/-- Model of `to_bash_var`: a random alphanumeric string three characters shorter
than the placeholder (the `rand` sampler is external; it is modelled by an
arbitrary generator `sample` producing a string of the requested length). -/
def toBashVar (placeholderLen : Nat) (sample : Nat → List Char) : List Char :=
  sample (placeholderLen - 3)

/-- The double-quote character (written via its code point to keep the
source free of quote characters inside character literals). -/
def dquote : Char := Char.ofNat 34

/-- The expansion `sanitize_command` substitutes for a placeholder:
`"$var"` (a double-quoted dollar-prefixed synthetic variable). -/
def placeholderExpansion (bashVar : List Char) : List Char :=
  dquote :: '$' :: (bashVar ++ [dquote])

/-- C4: starting from "hello", appending "world" at [5,5) after-end with
precedence 2 together with inserting " " at [5,5) before-start with
precedence 1 yields "hello world" through `apply_replacements`, for either
order of the two replacements in the input list. -/
theorem c4_insertion_test :
    ((Fixer.new ("hello".toList)).applyReplacements
        [⟨5, 5, InsertionPoint.AfterEnd, "world".toList, 2⟩,
         ⟨5, 5, InsertionPoint.BeforeStart, " ".toList, 1⟩]).value
      = ("hello world").toList
    ∧ ((Fixer.new ("hello".toList)).applyReplacements
        [⟨5, 5, InsertionPoint.BeforeStart, " ".toList, 1⟩,
         ⟨5, 5, InsertionPoint.AfterEnd, "world".toList, 2⟩]).value
      = ("hello world").toList := by
  constructor <;> rfl

/-- C1 counterexample: on "abc", the pairwise non-overlapping, in-range
replacements `[1,1)` (insert "X", after-end, precedence 2) and `[2,3)`
(replace by "Q", precedence 1) give "aXQ" through `apply_replacements`
(precedences are distinct, so this is the unique precedence-consistent
order), while the naive right-to-left reference gives "aXbQ". -/
theorem c1_counterexample :
    ((⟨1, 1, InsertionPoint.AfterEnd, "X".toList, 2⟩ : Replacement).endPos
        ≤ (⟨2, 3, InsertionPoint.BeforeStart, "Q".toList, 1⟩ : Replacement).start
      ∧ (⟨2, 3, InsertionPoint.BeforeStart, "Q".toList, 1⟩ : Replacement).endPos
        ≤ ("abc".toList).length)
    ∧ ((Fixer.new ("abc".toList)).applyReplacements
        [⟨1, 1, InsertionPoint.AfterEnd, "X".toList, 2⟩,
         ⟨2, 3, InsertionPoint.BeforeStart, "Q".toList, 1⟩]).value
      = "aXQ".toList
    ∧ naiveRightToLeft ("abc".toList)
        [⟨1, 1, InsertionPoint.AfterEnd, "X".toList, 2⟩,
         ⟨2, 3, InsertionPoint.BeforeStart, "Q".toList, 1⟩]
      = "aXbQ".toList
    ∧ "aXQ".toList ≠ "aXbQ".toList := by
  refine ⟨⟨by decide, by decide⟩, rfl, rfl, by decide⟩

/-- C2 counterexample: after applying the replacement deleting `[0,2)` of
"abc" (before-start, so its delta −2 is recorded at boundary 0), the code's
`transform 0` is `0`, but the claim's formula (sum over boundaries `≤ 0`)
yields `−2`: a delta recorded at a boundary equal to the index does NOT
affect `transform`. -/
theorem c2_counterexample :
    ((Fixer.new ("abc".toList)).applyReplacement
        ⟨0, 2, InsertionPoint.BeforeStart, [], 1⟩).transform 0 = 0
    ∧ claimedTransform
        ((Fixer.new ("abc".toList)).applyReplacement
          ⟨0, 2, InsertionPoint.BeforeStart, [], 1⟩) 0 = -2
    ∧ (0 : Int) ≠ -2 := by
  refine ⟨rfl, rfl, by decide⟩

/-- C3 counterexample: two equal-precedence insertions at position 0.
`apply_replacements` applies the SECOND input first (yielding "12"), whereas
applying the earlier input first — the order the claim asserts — yields
"21". -/
theorem c3_counterexample :
    (⟨0, 0, InsertionPoint.BeforeStart, "1".toList, 5⟩ : Replacement).precedence
      = (⟨0, 0, InsertionPoint.BeforeStart, "2".toList, 5⟩ : Replacement).precedence
    ∧ ((Fixer.new []).applyReplacements
        [⟨0, 0, InsertionPoint.BeforeStart, "1".toList, 5⟩,
         ⟨0, 0, InsertionPoint.BeforeStart, "2".toList, 5⟩]).value = "12".toList
    ∧ (((Fixer.new []).applyReplacement
          ⟨0, 0, InsertionPoint.BeforeStart, "1".toList, 5⟩).applyReplacement
          ⟨0, 0, InsertionPoint.BeforeStart, "2".toList, 5⟩).value = "21".toList
    ∧ "12".toList ≠ "21".toList := by
  refine ⟨rfl, rfl, rfl, by decide⟩

/-- A Fenwick point update only changes prefix sums that cover the updated
slot: if the slot is in range and strictly below the queried index, the
prefix sum grows by the delta; otherwise it is unchanged. -/
theorem prefixSum_addAt (t : List Int) (s : Nat) (d : Int) (i : Nat) :
    prefixSum (addAt t s d) i =
      prefixSum t i + (if s < i ∧ s < t.length then d else 0) := by
  induction t generalizing s i with
  | nil => simp [prefixSum, addAt]
  | cons a tl ih =>
    cases s with
    | zero =>
      cases i with
      | zero => simp [prefixSum, addAt]
      | succ j =>
        simp only [addAt, List.getD_cons_zero, List.set_cons_zero, prefixSum,
          List.take_succ_cons, List.sum_cons, List.length_cons]
        have : (0 : Nat) < j + 1 ∧ (0 : Nat) < tl.length + 1 := by omega
        rw [if_pos this]
        ring
    | succ m =>
      cases i with
      | zero => simp [prefixSum, addAt]
      | succ j =>
        simp only [addAt, List.getD_cons_succ, List.set_cons_succ, prefixSum,
          List.take_succ_cons, List.sum_cons, List.length_cons]
        have hmtl := ih m j
        simp only [addAt, prefixSum] at hmtl
        rw [hmtl]
        have hiff : (m < j ∧ m < tl.length) ↔ (m + 1 < j + 1 ∧ m + 1 < tl.length + 1) := by
          omega
        by_cases hc : m < j ∧ m < tl.length
        · rw [if_pos hc, if_pos (hiff.mp hc)]; ring
        · rw [if_neg hc, if_neg (fun h => hc (hiff.mpr h))]; ring

/-- A point update never changes the slot count. -/
theorem length_addAt (t : List Int) (s : Nat) (d : Int) :
    (addAt t s d).length = t.length := by
  simp [addAt]

/-- Applying a replacement never changes the slot count of the tree. -/
theorem tree_length_applyReplacement (f : Fixer) (r : Replacement) :
    (f.applyReplacement r).tree.length = f.tree.length := by
  simp [Fixer.applyReplacement, length_addAt]

/-- Folding a batch of replacements over any fixer adds, to each `transform`,
exactly the sum of the deltas recorded strictly below the index (and inside
the tree), independent of order. -/
theorem transform_foldl (rs : List Replacement) :
    ∀ (f : Fixer) (i : Nat),
      (rs.foldl Fixer.applyReplacement f).transform i =
        f.transform i + sumRecordedBelow rs f.tree.length i := by
  induction rs with
  | nil => intro f i; simp [sumRecordedBelow]
  | cons r rest ih =>
    intro f i
    rw [List.foldl_cons, ih]
    have htree : (f.applyReplacement r).tree.length = f.tree.length :=
      tree_length_applyReplacement f r
    rw [htree]
    have hstep : (f.applyReplacement r).transform i =
        f.transform i +
          (if recordedBoundary r < i ∧ recordedBoundary r < f.tree.length
            then deltaOf r else 0) := by
      simp only [Fixer.applyReplacement, Fixer.transform]
      rw [prefixSum_addAt]
      ring
    rw [hstep]
    have hsum : sumRecordedBelow (r :: rest) f.tree.length i =
        (if recordedBoundary r < i ∧ recordedBoundary r < f.tree.length
          then deltaOf r else 0) + sumRecordedBelow rest f.tree.length i := by
      by_cases hc : recordedBoundary r < i ∧ recordedBoundary r < f.tree.length
      · simp [sumRecordedBelow, List.filter_cons, hc]
      · simp [sumRecordedBelow, List.filter_cons, hc]
    rw [hsum]
    ring

/-- C2 (amended): for a fixer built by applying a batch of well-formed
replacements to `Fixer::new(v)`, `transform i` equals `i` plus the sum of
all deltas recorded at boundaries STRICTLY below `i` (boundaries within the
tree, i.e. `≤ v.length`); this sum is order-independent, and in particular
a delta recorded at a boundary `≥ i` — including one recorded exactly at
`i` — leaves `transform i` unchanged. -/
theorem c2_transform_formula (v : List Char) (rs : List Replacement)
    (_hwf : ∀ r ∈ rs, r.start ≤ r.endPos) (i : Nat) :
    (rs.foldl Fixer.applyReplacement (Fixer.new v)).transform i =
      (i : Int) + sumRecordedBelow rs (v.length + 1) i := by
  have h := transform_foldl rs (Fixer.new v) i
  have hlen : (Fixer.new v).tree.length = v.length + 1 := by
    simp [Fixer.new]
  rw [hlen] at h
  have hbase : (Fixer.new v).transform i = (i : Int) := by
    simp only [Fixer.new, Fixer.transform, prefixSum]
    rw [List.take_replicate]
    simp
  rw [h, hbase]

/-- Witness for the amended C2 at a concrete input: deleting `[0,2)` of
"abc", `transform 3` is `3 + (−2) = 1`. -/
theorem c2_transform_formula_witness :
    ([⟨0, 2, InsertionPoint.BeforeStart, [], 1⟩].foldl Fixer.applyReplacement
        (Fixer.new ("abc".toList))).transform 3 =
      (3 : Int) + sumRecordedBelow [⟨0, 2, InsertionPoint.BeforeStart, [], 1⟩]
        (("abc".toList).length + 1) 3 :=
  c2_transform_formula ("abc".toList) [⟨0, 2, InsertionPoint.BeforeStart, [], 1⟩]
    (by decide) 3

theorem insertByPrecStrict_of_forall (r : Replacement) (l : List Replacement)
    (h : ∀ y ∈ l, ¬ y.precedence < r.precedence) :
    insertByPrecStrict r l = l ++ [r] := by
  induction l with
  | nil => rfl
  | cons a t ih =>
    have ha : ¬ a.precedence < r.precedence := h a (List.mem_cons_self a t)
    simp only [insertByPrecStrict, if_neg ha, List.cons_append]
    rw [ih fun y hy => h y (List.mem_cons_of_mem a hy)]

theorem insertByPrecStrict_append_last (r a : Replacement) (l : List Replacement)
    (h : a.precedence < r.precedence) :
    insertByPrecStrict r (l ++ [a]) = insertByPrecStrict r l ++ [a] := by
  induction l with
  | nil => simp [insertByPrecStrict, if_pos h]
  | cons b t ih =>
    by_cases hb : b.precedence < r.precedence
    · simp [insertByPrecStrict, if_pos hb]
    · simp only [List.cons_append, insertByPrecStrict, if_neg hb]
      exact congrArg (b :: ·) ih

theorem orderedInsert_mem (r y : Replacement) (l : List Replacement) :
    y ∈ orderedInsert r l ↔ y = r ∨ y ∈ l := by
  induction l with
  | nil => simp [orderedInsert]
  | cons a t ih =>
    by_cases h : r.precedence ≤ a.precedence
    · simp [orderedInsert, if_pos h]
    · simp only [orderedInsert, if_neg h, List.mem_cons, ih]
      tauto

theorem orderedInsert_pairwise (r : Replacement) (l : List Replacement)
    (h : l.Pairwise fun a b => a.precedence ≤ b.precedence) :
    (orderedInsert r l).Pairwise fun a b => a.precedence ≤ b.precedence := by
  induction l with
  | nil => simp [orderedInsert]
  | cons a t ih =>
    rcases List.pairwise_cons.mp h with ⟨ha, ht⟩
    by_cases hra : r.precedence ≤ a.precedence
    · rw [orderedInsert, if_pos hra]
      refine List.pairwise_cons.mpr ⟨?_, h⟩
      intro y hy
      rcases List.mem_cons.mp hy with rfl | hyt
      · exact hra
      · exact le_trans hra (ha y hyt)
    · rw [orderedInsert, if_neg hra]
      refine List.pairwise_cons.mpr ⟨?_, ih ht⟩
      intro y hy
      rcases (orderedInsert_mem r y t).mp hy with rfl | hyt
      · omega
      · exact ha y hyt

theorem sortByPrecedence_sorted (l : List Replacement) :
    (sortByPrecedence l).Pairwise fun a b => a.precedence ≤ b.precedence := by
  induction l with
  | nil => simp [sortByPrecedence]
  | cons r rest ih => exact orderedInsert_pairwise r (sortByPrecedence rest) ih

theorem reverse_orderedInsert (r : Replacement) (l : List Replacement)
    (h : l.Pairwise fun a b => a.precedence ≤ b.precedence) :
    (orderedInsert r l).reverse = insertByPrecStrict r l.reverse := by
  induction l with
  | nil => rfl
  | cons a t ih =>
    rcases List.pairwise_cons.mp h with ⟨ha, ht⟩
    by_cases hra : r.precedence ≤ a.precedence
    · rw [orderedInsert, if_pos hra]
      have hall : ∀ y ∈ (a :: t).reverse, ¬ y.precedence < r.precedence := by
        intro y hy
        rcases List.mem_cons.mp (List.mem_reverse.mp hy) with rfl | hyt
        · omega
        · have := ha y hyt; omega
      rw [insertByPrecStrict_of_forall r _ hall]
      simp
    · rw [orderedInsert, if_neg hra]
      have hra' : a.precedence < r.precedence := by omega
      simp only [List.reverse_cons]
      rw [insertByPrecStrict_append_last r a t.reverse hra', ← ih ht]

/-- The list `sortByPrecedence` computes, expressed as a right fold. -/
theorem sortByPrecedence_eq_foldr (l : List Replacement) :
    sortByPrecedence l = l.foldr orderedInsert [] := by
  induction l with
  | nil => rfl
  | cons r rest ih => simp [sortByPrecedence, ih]

/-- The order `apply_replacements` actually uses is the STABLE DESCENDING
sort of the REVERSED input: descending precedence, and elements of equal
precedence in reverse input order (the later one applied first). -/
theorem appliedOrder_eq_stableDescSort_reverse (reps : List Replacement) :
    appliedOrder reps = stableDescSort reps.reverse := by
  rw [appliedOrder, stableDescSort, List.foldl_reverse, sortByPrecedence_eq_foldr]
  induction reps with
  | nil => rfl
  | cons r rest ih =>
    simp only [List.foldr_cons]
    rw [reverse_orderedInsert r _ (by rw [← sortByPrecedence_eq_foldr]; exact sortByPrecedence_sorted rest), ih]

/-- C3 (amended): `apply_replacements` applies the batch in descending order
of precedence, but two replacements of EQUAL precedence are applied in
REVERSE input order (the later one in the input list first): the applied
order is the stable descending sort of the reversed input. -/
theorem c3_applied_order (f : Fixer) (reps : List Replacement) :
    Fixer.applyReplacements f reps =
      (stableDescSort reps.reverse).foldl Fixer.applyReplacement f
    ∧ (appliedOrder reps).Pairwise fun a b => b.precedence ≤ a.precedence := by
  constructor
  · rw [Fixer.applyReplacements, appliedOrder_eq_stableDescSort_reverse]
  · rw [appliedOrder]
    exact List.pairwise_reverse.mpr (sortByPrecedence_sorted reps)

theorem sepa_symm : Symmetric sepa := fun _ _ h => h.elim Or.inr Or.inl

/-- Splicing the range `[s, e)` commutes with a splice at positions at or
beyond `e`: performing the high splice first and then the low one equals
performing the low one first and the high one at positions shifted by the
low edit's length change. -/
theorem splice_exchange (v : List Char) (s e p q : Nat) (u t : List Char)
    (hse : s ≤ e) (hep : e ≤ p) (heq2 : e ≤ q) (hev : e ≤ v.length) :
    splice (splice v p q t) s e u =
      splice (splice v s e u) (p - (e - s) + u.length) (q - (e - s) + u.length) t := by
  have hvp : s ≤ (v.take p).length := by
    rw [List.length_take]; omega
  have h1 : (v.take p ++ t ++ v.drop q).take s = v.take s := by
    rw [List.append_assoc, List.take_append_eq_append_take,
      Nat.sub_eq_zero_of_le hvp, List.take_zero, List.append_nil, List.take_take,
      Nat.min_eq_left (by omega : s ≤ p)]
  have h2 : (v.take p ++ t ++ v.drop q).drop e =
      (v.drop e).take (p - e) ++ t ++ v.drop q := by
    rw [List.append_assoc, List.drop_append_eq_append_drop,
      Nat.sub_eq_zero_of_le (by rw [List.length_take]; omega : e ≤ (v.take p).length),
      List.drop_zero, List.drop_take, List.append_assoc]
  have hs_len : (v.take s).length = s := by
    rw [List.length_take]; omega
  have h3 : (v.take s ++ u ++ v.drop e).take (p - (e - s) + u.length) =
      v.take s ++ u ++ (v.drop e).take (p - e) := by
    rw [List.append_assoc, List.take_append_eq_append_take,
      List.take_of_length_le (by rw [hs_len]; omega), hs_len,
      List.take_append_eq_append_take,
      List.take_of_length_le (by omega : u.length ≤ p - (e - s) + u.length - s)]
    have harith : p - (e - s) + u.length - s - u.length = p - e := by omega
    rw [harith, List.append_assoc]
  have h4 : (v.take s ++ u ++ v.drop e).drop (q - (e - s) + u.length) = v.drop q := by
    rw [List.append_assoc, List.drop_append_eq_append_drop,
      List.drop_eq_nil_of_le (by rw [hs_len]; omega), List.nil_append, hs_len,
      List.drop_append_eq_append_drop,
      List.drop_eq_nil_of_le (by omega : u.length ≤ q - (e - s) + u.length - s),
      List.nil_append]
    have harith : q - (e - s) + u.length - s - u.length = q - e := by omega
    rw [harith, List.drop_drop]
    congr 1
    omega
  show (v.take p ++ t ++ v.drop q).take s ++ u ++ (v.take p ++ t ++ v.drop q).drop e = _
  rw [h1, h2]
  show _ = (v.take s ++ u ++ v.drop e).take (p - (e - s) + u.length) ++ t ++
      (v.take s ++ u ++ v.drop e).drop (q - (e - s) + u.length)
  rw [h3, h4]
  simp [List.append_assoc]

/-- Length of a splice result when the spliced range is in bounds. -/
theorem length_splice (v : List Char) (a b : Nat) (t : List Char)
    (hab : a ≤ b) (hbv : b ≤ v.length) :
    (splice v a b t).length = a + t.length + (v.length - b) := by
  simp only [splice, List.length_append, List.length_take, List.length_drop]
  omega

/-- Folding a descending chain of naive edits, all lying at or below `p`,
commutes with a splice at `[p, q)`: the splice's boundaries just get carried
through the chain by `shiftPos`. -/
theorem fold_above (S : List Replacement) :
    ∀ (v : List Char) (p q : Nat) (t : List Char),
      (S.Pairwise fun a b => b.endPos ≤ a.start) →
      (∀ x ∈ S, x.start ≤ x.endPos) →
      (∀ x ∈ S, x.endPos ≤ p) →
      (∀ x ∈ S, x.endPos ≤ v.length) →
      p ≤ q →
      S.foldl naiveApply (splice v p q t) =
        splice (S.foldl naiveApply v) (shiftPos S p) (shiftPos S q) t := by
  induction S with
  | nil => intro v p q t _ _ _ _ _; rfl
  | cons x rest ih =>
    intro v p q t hchain hwf hbelow hbound hpq
    rcases List.pairwise_cons.mp hchain with ⟨hx, hrest⟩
    have hxse : x.start ≤ x.endPos := hwf x (List.mem_cons_self x rest)
    have hxp : x.endPos ≤ p := hbelow x (List.mem_cons_self x rest)
    have hxv : x.endPos ≤ v.length := hbound x (List.mem_cons_self x rest)
    have hstep : naiveApply (splice v p q t) x =
        splice (naiveApply v x) (p - (x.endPos - x.start) + x.replacement.length)
          (q - (x.endPos - x.start) + x.replacement.length) t :=
      splice_exchange v x.start x.endPos p q x.replacement t hxse hxp (by omega) hxv
    rw [List.foldl_cons, hstep, List.foldl_cons]
    have hlen : (naiveApply v x).length = x.start + x.replacement.length +
        (v.length - x.endPos) :=
      length_splice v x.start x.endPos x.replacement hxse hxv
    refine ih (naiveApply v x) _ _ t hrest
      (fun y hy => hwf y (List.mem_cons_of_mem x hy))
      (fun y hy => ?_) (fun y hy => ?_) (by omega)
    · have hyx : y.endPos ≤ x.start := hx y hy
      omega
    · have hyx : y.endPos ≤ x.start := hx y hy
      omega

/-- On a descending chain of edits all lying at or below `p`, `shiftPos`
computes exactly `p` plus the sum of the edits' length deltas. -/
theorem shiftPos_eq (S : List Replacement) :
    ∀ p : Nat,
      (S.Pairwise fun a b => b.endPos ≤ a.start) →
      (∀ x ∈ S, x.start ≤ x.endPos) →
      (∀ x ∈ S, x.endPos ≤ p) →
      (shiftPos S p : Int) = (p : Int) + (S.map deltaOf).sum := by
  induction S with
  | nil => intro p _ _ _; simp [shiftPos]
  | cons x rest ih =>
    intro p hchain hwf hbelow
    rcases List.pairwise_cons.mp hchain with ⟨hx, hrest⟩
    have hxse : x.start ≤ x.endPos := hwf x (List.mem_cons_self x rest)
    have hxp : x.endPos ≤ p := hbelow x (List.mem_cons_self x rest)
    rw [shiftPos]
    have hrec := ih (p - (x.endPos - x.start) + x.replacement.length) hrest
      (fun y hy => hwf y (List.mem_cons_of_mem x hy))
      (fun y hy => by have := hx y hy; omega)
    rw [hrec]
    simp only [List.map_cons, List.sum_cons, deltaOf]
    push_cast [Nat.sub_sub_self]
    omega

theorem sumDeltasBelow_perm {A B : List Replacement} (h : A.Perm B) (i : Nat) :
    sumDeltasBelow A i = sumDeltasBelow B i :=
  ((h.filter _).map deltaOf).sum_eq

theorem insertStartDesc_mem (r y : Replacement) (l : List Replacement) :
    y ∈ insertStartDesc r l ↔ y = r ∨ y ∈ l := by
  induction l with
  | nil => simp [insertStartDesc]
  | cons a t ih =>
    by_cases h : a.start ≤ r.start
    · simp [insertStartDesc, if_pos h]
    · simp only [insertStartDesc, if_neg h, List.mem_cons, ih]
      tauto

theorem insertStartDesc_perm (r : Replacement) (l : List Replacement) :
    (insertStartDesc r l).Perm (r :: l) := by
  induction l with
  | nil => exact List.Perm.refl _
  | cons a t ih =>
    by_cases h : a.start ≤ r.start
    · rw [insertStartDesc, if_pos h]
    · rw [insertStartDesc, if_neg h]
      exact (ih.cons a).trans (List.Perm.swap r a t)

theorem sortByStartDesc_perm (l : List Replacement) :
    (sortByStartDesc l).Perm l := by
  induction l with
  | nil => exact List.Perm.refl _
  | cons r rest ih =>
    exact (insertStartDesc_perm r (sortByStartDesc rest)).trans (ih.cons r)

theorem insertStartDesc_pairwise (r : Replacement) (l : List Replacement)
    (h : l.Pairwise fun a b => b.start ≤ a.start) :
    (insertStartDesc r l).Pairwise fun a b => b.start ≤ a.start := by
  induction l with
  | nil => simp [insertStartDesc]
  | cons a t ih =>
    rcases List.pairwise_cons.mp h with ⟨ha, ht⟩
    by_cases hra : a.start ≤ r.start
    · rw [insertStartDesc, if_pos hra]
      refine List.pairwise_cons.mpr ⟨?_, h⟩
      intro y hy
      rcases List.mem_cons.mp hy with rfl | hyt
      · exact hra
      · exact le_trans (ha y hyt) hra
    · rw [insertStartDesc, if_neg hra]
      refine List.pairwise_cons.mpr ⟨?_, ih ht⟩
      intro y hy
      rcases (insertStartDesc_mem r y t).mp hy with rfl | hyt
      · omega
      · exact ha y hyt

theorem sortByStartDesc_sorted (l : List Replacement) :
    (sortByStartDesc l).Pairwise fun a b => b.start ≤ a.start := by
  induction l with
  | nil => simp [sortByStartDesc]
  | cons r rest ih => exact insertStartDesc_pairwise r (sortByStartDesc rest) ih

/-- Start-descending order plus pairwise separation yields the chain
condition: each later element ends at or before the earlier one starts. -/
theorem chain_of_sorted_sepa (S : List Replacement)
    (hsort : S.Pairwise fun a b => b.start ≤ a.start)
    (hsep : S.Pairwise sepa) :
    S.Pairwise fun a b => b.endPos ≤ a.start := by
  refine (hsort.and hsep).imp ?_
  intro a b hab
  rcases hab with ⟨hle, hs | hs⟩
  · omega
  · exact hs.1

/-- Inserting one separated replacement into a start-descending chain of
naive edits is the same as splicing its text into the chain's result at its
delta-translated positions. -/
theorem splice_insert (k : Replacement) (hk : k.start ≤ k.endPos) :
    ∀ (S : List Replacement) (v : List Char),
      (S.Pairwise fun a b => b.start ≤ a.start) →
      S.Pairwise sepa →
      (∀ x ∈ S, x.start ≤ x.endPos) →
      (∀ x ∈ S, x.endPos ≤ v.length) →
      (∀ x ∈ S, sepa k x) →
      (insertStartDesc k S).foldl naiveApply v =
        splice (S.foldl naiveApply v)
          ((k.start : Int) + sumDeltasBelow S k.start).toNat
          ((k.endPos : Int) + sumDeltasBelow S k.endPos).toNat
          k.replacement := by
  intro S
  induction S with
  | nil =>
    intro v _ _ _ _ _
    simp [insertStartDesc, sumDeltasBelow, naiveApply, List.foldl_cons]
  | cons r rest ih =>
    intro v hsort hsep hwf hbound hksep
    rcases List.pairwise_cons.mp hsort with ⟨hsortr, hsortt⟩
    rcases List.pairwise_cons.mp hsep with ⟨hsepr, hsept⟩
    by_cases hr : r.start ≤ k.start
    · -- `k` has the largest start: it is applied first.
      rw [insertStartDesc, if_pos hr]
      have hall : ∀ x ∈ r :: rest, x.endPos ≤ k.start ∧ x.start < k.start := by
        intro x hx
        have hxs : x.start ≤ r.start := by
          rcases List.mem_cons.mp hx with rfl | hxt
          · exact le_refl _
          · exact hsortr x hxt
        rcases hksep x hx with h | h
        · omega
        · exact ⟨h.1, h.2⟩
      have hchain : (r :: rest).Pairwise fun a b => b.endPos ≤ a.start :=
        chain_of_sorted_sepa _ hsort hsep
      have hfold := fold_above (r :: rest) v k.start k.endPos k.replacement hchain hwf
        (fun x hx => (hall x hx).1) hbound hk
      rw [List.foldl_cons]
      have hna : naiveApply v k = splice v k.start k.endPos k.replacement := rfl
      rw [hna, hfold]
      have hfilters : (r :: rest).filter (fun x => decide (x.start < k.start)) = r :: rest :=
        List.filter_eq_self.mpr fun x hx => decide_eq_true (hall x hx).2
      have hfiltere : (r :: rest).filter (fun x => decide (x.start < k.endPos)) = r :: rest :=
        List.filter_eq_self.mpr fun x hx => decide_eq_true (by have := (hall x hx).2; omega)
      have hshs := shiftPos_eq (r :: rest) k.start hchain hwf fun x hx => (hall x hx).1
      have hshe := shiftPos_eq (r :: rest) k.endPos hchain hwf
        fun x hx => by have := (hall x hx).1; omega
      have hps : shiftPos (r :: rest) k.start =
          ((k.start : Int) + sumDeltasBelow (r :: rest) k.start).toNat := by
        rw [sumDeltasBelow, hfilters]
        omega
      have hpe : shiftPos (r :: rest) k.endPos =
          ((k.endPos : Int) + sumDeltasBelow (r :: rest) k.endPos).toNat := by
        rw [sumDeltasBelow, hfiltere]
        omega
      rw [hps, hpe]
    · -- `r` has a strictly larger start: it stays first, `k` goes deeper.
      rw [insertStartDesc, if_neg hr]
      have hkr : sepa k r := hksep r (List.mem_cons_self r rest)
      have hke : k.endPos ≤ r.start := by
        rcases hkr with h | h
        · exact h.1
        · omega
      have hrw : r.start ≤ r.endPos := hwf r (List.mem_cons_self r rest)
      have hrb : r.endPos ≤ v.length := hbound r (List.mem_cons_self r rest)
      have hlen : (naiveApply v r).length =
          r.start + r.replacement.length + (v.length - r.endPos) :=
        length_splice v r.start r.endPos r.replacement hrw hrb
      have hbound2 : ∀ x ∈ rest, x.endPos ≤ (naiveApply v r).length := by
        intro x hx
        have hxr : x.endPos ≤ r.start := by
          have hxs : x.start ≤ r.start := hsortr x hx
          rcases hsepr x hx with h | h
          · omega
          · exact h.1
        omega
      have hrec := ih (naiveApply v r) hsortt hsept
        (fun x hx => hwf x (List.mem_cons_of_mem r hx)) hbound2
        (fun x hx => hksep x (List.mem_cons_of_mem r hx))
      rw [List.foldl_cons, hrec, List.foldl_cons]
      have hfs : sumDeltasBelow (r :: rest) k.start = sumDeltasBelow rest k.start := by
        have : ¬ r.start < k.start := by omega
        simp [sumDeltasBelow, List.filter_cons, this]
      have hfe : sumDeltasBelow (r :: rest) k.endPos = sumDeltasBelow rest k.endPos := by
        have : ¬ r.start < k.endPos := by omega
        simp [sumDeltasBelow, List.filter_cons, this]
      rw [hfs, hfe]

theorem orderedInsert_perm (r : Replacement) (l : List Replacement) :
    (orderedInsert r l).Perm (r :: l) := by
  induction l with
  | nil => exact List.Perm.refl _
  | cons a t ih =>
    by_cases h : r.precedence ≤ a.precedence
    · rw [orderedInsert, if_pos h]
    · rw [orderedInsert, if_neg h]
      exact (ih.cons a).trans (List.Perm.swap r a t)

theorem sortByPrecedence_perm (l : List Replacement) :
    (sortByPrecedence l).Perm l := by
  induction l with
  | nil => exact List.Perm.refl _
  | cons r rest ih =>
    exact (orderedInsert_perm r (sortByPrecedence rest)).trans (ih.cons r)

theorem appliedOrder_perm (l : List Replacement) : (appliedOrder l).Perm l :=
  (List.reverse_perm (sortByPrecedence l)).trans (sortByPrecedence_perm l)

/-- For batches with pairwise distinct start offsets, the naive right-to-left
result only depends on the set of replacements, not their input order. -/
theorem naiveRightToLeft_perm (v : List Char) {A B : List Replacement}
    (h : A.Perm B) (hsep : B.Pairwise sepa) :
    naiveRightToLeft v A = naiveRightToLeft v B := by
  have hneB : B.Pairwise fun a b => a.start ≠ b.start := by
    refine hsep.imp ?_
    intro a b hab
    rcases hab with hx | hx <;> omega
  have hsymmne : Symmetric fun a b : Replacement => a.start ≠ b.start :=
    fun _ _ hne => Ne.symm hne
  have hneA : A.Pairwise fun a b => a.start ≠ b.start :=
    (h.pairwise_iff fun hab => hsymmne hab).mpr hneB
  have hsortA : (sortByStartDesc A).Pairwise fun a b => b.start < a.start := by
    have hne : (sortByStartDesc A).Pairwise fun a b => a.start ≠ b.start :=
      ((sortByStartDesc_perm A).pairwise_iff fun hab => hsymmne hab).mpr hneA
    refine ((sortByStartDesc_sorted A).and hne).imp ?_
    intro a b hab
    omega
  have hsortB : (sortByStartDesc B).Pairwise fun a b => b.start < a.start := by
    have hne : (sortByStartDesc B).Pairwise fun a b => a.start ≠ b.start :=
      ((sortByStartDesc_perm B).pairwise_iff fun hab => hsymmne hab).mpr hneB
    refine ((sortByStartDesc_sorted B).and hne).imp ?_
    intro a b hab
    omega
  have hperm : (sortByStartDesc A).Perm (sortByStartDesc B) :=
    (sortByStartDesc_perm A).trans (h.trans (sortByStartDesc_perm B).symm)
  haveI : IsAntisymm Replacement fun a b => b.start < a.start :=
    ⟨fun _ _ h₁ h₂ => absurd h₂ (by omega)⟩
  have heq : sortByStartDesc A = sortByStartDesc B :=
    List.eq_of_perm_of_sorted hperm hsortA hsortB
  rw [naiveRightToLeft, naiveRightToLeft, heq]

/-- Invariant of the fixer state: after applying any prefix `P` of a
compatible batch on top of already-applied `A`, the value is the naive
right-to-left result for the applied set and the tree's prefix sums are the
delta sums below each index. -/
theorem fold_invariant (v : List Char) :
    ∀ (P A : List Replacement) (f : Fixer),
      (∀ r ∈ A ++ P, r.start ≤ r.endPos ∧ r.endPos ≤ v.length ∧
        r.insertionPoint = InsertionPoint.BeforeStart) →
      (A ++ P).Pairwise sepa →
      f.value = naiveRightToLeft v A →
      f.tree.length = v.length + 1 →
      (∀ i, prefixSum f.tree i = sumDeltasBelow A i) →
      (P.foldl Fixer.applyReplacement f).value = naiveRightToLeft v (P.reverse ++ A) ∧
        (P.foldl Fixer.applyReplacement f).tree.length = v.length + 1 ∧
        ∀ i, prefixSum (P.foldl Fixer.applyReplacement f).tree i =
          sumDeltasBelow (P.reverse ++ A) i := by
  intro P
  induction P with
  | nil =>
    intro A f _ _ hval htlen hpre
    exact ⟨by simpa using hval, htlen, by simpa using hpre⟩
  | cons k P2 ih =>
    intro A f hwf hsep hval htlen hpre
    have hkmem : k ∈ A ++ k :: P2 :=
      List.mem_append_right A (List.mem_cons_self k P2)
    rcases hwf k hkmem with ⟨hkse, hkb, hkip⟩
    rcases List.pairwise_append.mp hsep with ⟨hsepA, hsepKP, hsepAcross⟩
    have hsepAk : ∀ a ∈ A, sepa a k :=
      fun a ha => hsepAcross a ha k (List.mem_cons_self k P2)
    -- Facts about the sorted applied set.
    set S := sortByStartDesc A with hS
    have hSperm : S.Perm A := sortByStartDesc_perm A
    have hSsort : S.Pairwise fun a b => b.start ≤ a.start := sortByStartDesc_sorted A
    have hSsep : S.Pairwise sepa :=
      (hSperm.pairwise_iff fun hab => sepa_symm hab).mpr hsepA
    have hSwf : ∀ x ∈ S, x.start ≤ x.endPos := by
      intro x hx
      exact (hwf x (List.mem_append_left _ (hSperm.mem_iff.mp hx))).1
    have hSbound : ∀ x ∈ S, x.endPos ≤ v.length := by
      intro x hx
      exact (hwf x (List.mem_append_left _ (hSperm.mem_iff.mp hx))).2.1
    have hSk : ∀ x ∈ S, sepa k x :=
      fun x hx => sepa_symm (hsepAk x (hSperm.mem_iff.mp hx))
    -- The step: applying `k` matches extending the naive result by `k`.
    have hsplice := splice_insert k hkse S v hSsort hSsep hSwf hSbound hSk
    have hstartsum : sumDeltasBelow S k.start = sumDeltasBelow A k.start :=
      sumDeltasBelow_perm hSperm k.start
    have hendsum : sumDeltasBelow S k.endPos = sumDeltasBelow A k.endPos :=
      sumDeltasBelow_perm hSperm k.endPos
    have hvalstep : (f.applyReplacement k).value = naiveRightToLeft v (k :: A) := by
      have hrtl : naiveRightToLeft v (k :: A) =
          (insertStartDesc k S).foldl naiveApply v := rfl
      rw [hrtl, hsplice, hstartsum, hendsum]
      have hSv : S.foldl naiveApply v = f.value := hval.symm
      rw [hSv]
      simp only [Fixer.applyReplacement, Fixer.transform, splice]
      rw [hpre k.start, hpre k.endPos]
    have hboundary : recordedBoundary k = k.start := by
      simp [recordedBoundary, hkip]
    have htlen2 : (f.applyReplacement k).tree.length = v.length + 1 := by
      rw [tree_length_applyReplacement, htlen]
    have hpre2 : ∀ i, prefixSum (f.applyReplacement k).tree i =
        sumDeltasBelow (k :: A) i := by
      intro i
      have hup : prefixSum (f.applyReplacement k).tree i =
          prefixSum f.tree i +
            (if k.start < i ∧ k.start < f.tree.length then deltaOf k else 0) := by
        simp only [Fixer.applyReplacement]
        rw [hboundary, prefixSum_addAt]
      rw [hup, hpre i, htlen]
      by_cases hc : k.start < i
      · rw [if_pos ⟨hc, by omega⟩]
        simp [sumDeltasBelow, List.filter_cons, hc]
        ring
      · rw [if_neg (fun hcc => hc hcc.1)]
        simp [sumDeltasBelow, List.filter_cons, hc]
    -- Recurse with the applied set extended by `k`.
    have hwf2 : ∀ r ∈ (k :: A) ++ P2, r.start ≤ r.endPos ∧ r.endPos ≤ v.length ∧
        r.insertionPoint = InsertionPoint.BeforeStart := by
      intro r hr
      rw [List.cons_append, List.mem_cons] at hr
      rcases hr with rfl | hr2
      · exact ⟨hkse, hkb, hkip⟩
      · rcases List.mem_append.mp hr2 with ha | hp
        · exact hwf r (List.mem_append_left _ ha)
        · exact hwf r (List.mem_append_right _ (List.mem_cons_of_mem k hp))
    have hsep2 : ((k :: A) ++ P2).Pairwise sepa := by
      have hmid : (A ++ k :: P2).Perm (k :: (A ++ P2)) := List.perm_middle
      have h2 := (hmid.pairwise_iff fun hab => sepa_symm hab).mp hsep
      rwa [List.cons_append]
    have hrec := ih (k :: A) (f.applyReplacement k) hwf2 hsep2 hvalstep htlen2 hpre2
    have hlist : (k :: P2).reverse ++ A = P2.reverse ++ (k :: A) := by
      simp
    rw [List.foldl_cons, hlist]
    exact hrec

/-- A zero-length insertion strictly inside another replacement's range must
stay excluded from the amended C1: on "abcd", the batch `[0,3)` → "Z"
(precedence 2) with before-start insert "Y" at `[2,2)` (precedence 1) has
set-disjoint half-open in-range ranges, distinct start offsets and only
before-start insertion points, yet `apply_replacements` yields "YZd" while
the naive right-to-left reference yields "Zcd"; the pair violates `sepa`
(the smaller-start replacement ends at 3, after the insertion point 2), and
only that interval-order separation rules such batches out. -/
theorem sepa_exclusion_necessary :
    ¬ sepa ⟨0, 3, InsertionPoint.BeforeStart, "Z".toList, 2⟩
        ⟨2, 2, InsertionPoint.BeforeStart, "Y".toList, 1⟩
    ∧ ((Fixer.new ("abcd".toList)).applyReplacements
        [⟨0, 3, InsertionPoint.BeforeStart, "Z".toList, 2⟩,
         ⟨2, 2, InsertionPoint.BeforeStart, "Y".toList, 1⟩]).value = "YZd".toList
    ∧ naiveRightToLeft ("abcd".toList)
        [⟨0, 3, InsertionPoint.BeforeStart, "Z".toList, 2⟩,
         ⟨2, 2, InsertionPoint.BeforeStart, "Y".toList, 1⟩] = "Zcd".toList
    ∧ "YZd".toList ≠ "Zcd".toList := by
  refine ⟨by decide, rfl, rfl, by decide⟩

/-- C1 (amended): for every batch of in-range, BEFORE-START replacements
that are pairwise separated in the interval order — for any two, the one
with the strictly smaller start offset ends at or before the other starts
(`sepa`) — `apply_replacements` — hence any precedence assignment and input
order — produces exactly the naive right-to-left reference result. The
amendment excludes after-end insertion points (an after-end edit records
its delta one boundary too high for an immediately following replacement,
see the counterexample), batches with coinciding start offsets (for which
the right-to-left reference order is not even well defined), and a
zero-length insertion strictly inside another replacement's range —
set-disjointness with distinct starts is not enough, see
`sepa_exclusion_necessary`. -/
theorem c1_apply_replacements_eq_naive (v : List Char) (L : List Replacement)
    (hwf : ∀ r ∈ L, r.start ≤ r.endPos ∧ r.endPos ≤ v.length ∧
      r.insertionPoint = InsertionPoint.BeforeStart)
    (hsep : L.Pairwise sepa) :
    ((Fixer.new v).applyReplacements L).value = naiveRightToLeft v L := by
  have hperm : (appliedOrder L).Perm L := appliedOrder_perm L
  have hwfP : ∀ r ∈ ([] : List Replacement) ++ appliedOrder L,
      r.start ≤ r.endPos ∧ r.endPos ≤ v.length ∧
        r.insertionPoint = InsertionPoint.BeforeStart := by
    intro r hr
    rw [List.nil_append] at hr
    exact hwf r (hperm.mem_iff.mp hr)
  have hsepP : (([] : List Replacement) ++ appliedOrder L).Pairwise sepa := by
    rw [List.nil_append]
    exact (hperm.pairwise_iff fun hab => sepa_symm hab).mpr hsep
  have hinv := fold_invariant v (appliedOrder L) [] (Fixer.new v) hwfP hsepP rfl
    (by simp [Fixer.new]) (by intro i; simp [Fixer.new, prefixSum, List.take_replicate,
      sumDeltasBelow])
  rcases hinv with ⟨hval, -, -⟩
  rw [Fixer.applyReplacements, hval, List.append_nil]
  exact naiveRightToLeft_perm v ((List.reverse_perm _).trans hperm) hsep

/-- Witness for the amended C1 at a concrete input: the repository's own
deletion test, restated with before-start insertion points. -/
theorem c1_witness :
    ((Fixer.new ("My grammar is perfect.".toList)).applyReplacements
        [⟨11, 14, InsertionPoint.BeforeStart, [], 2⟩,
         ⟨14, 21, InsertionPoint.BeforeStart, "bad".toList, 1⟩]).value =
      naiveRightToLeft ("My grammar is perfect.".toList)
        [⟨11, 14, InsertionPoint.BeforeStart, [], 2⟩,
         ⟨14, 21, InsertionPoint.BeforeStart, "bad".toList, 1⟩] :=
  c1_apply_replacements_eq_naive ("My grammar is perfect.".toList)
    [⟨11, 14, InsertionPoint.BeforeStart, [], 2⟩,
     ⟨14, 21, InsertionPoint.BeforeStart, "bad".toList, 1⟩]
    (by decide) (by decide)

/-- C5: `run_shellcheck` yields the parsed findings exactly when the exit
code is 0 or 1 and the output deserializes; any other exit code yields an
error carrying that code, and an interrupted process yields the interrupted
error; in the handler, any such error is surfaced as a single error
diagnostic labelled at the command keyword span, and the visit returns
normally instead of aborting. -/
theorem c5_run_shellcheck :
    (∀ (status : Option Int) (parsed : Option (List ShellCheckDiagnostic))
        (ds : List ShellCheckDiagnostic),
      runShellcheckOutcome status parsed = Except.ok ds ↔
        ((status = some 0 ∨ status = some 1) ∧ parsed = some ds))
    ∧ (∀ (code : Int) (parsed : Option (List ShellCheckDiagnostic)),
        code ≠ 0 → code ≠ 1 →
        runShellcheckOutcome (some code) parsed =
          Except.error (ScError.unexpectedExitCode code))
    ∧ (∀ parsed : Option (List ShellCheckDiagnostic),
        runShellcheckOutcome none parsed = Except.error ScError.interrupted)
    ∧ (∀ (st : ScState) (inp : VisitInput) (e : ScError) (cmd : List Char)
        (cmdDecls : List (List Char)),
        inp.reason = VisitReason.enter →
        st.shellcheckExists = some true →
        inp.sanitizeResult = some (cmd, cmdDecls) →
        runShellcheckOutcome inp.exitStatus inp.parsedOutput = Except.error e →
        commandSection st inp =
          some ⟨⟨some true, st.diagnostics ++ [runErrorDiag e inp.keywordSpan]⟩,
            true, false, false⟩) := by
  refine ⟨?_, ?_, ?_, ?_⟩
  · intro status parsed ds
    constructor
    · intro h
      cases status with
      | none => exact absurd h (by simp [runShellcheckOutcome])
      | some code =>
        by_cases hc : code = 0 ∨ code = 1
        · refine ⟨?_, ?_⟩
          · rcases hc with rfl | rfl
            · exact Or.inl rfl
            · exact Or.inr rfl
          · simp only [runShellcheckOutcome, if_pos hc] at h
            cases parsed with
            | none => exact absurd h (by simp)
            | some ds2 =>
              simp only [Except.ok.injEq] at h
              rw [h]
        · simp only [runShellcheckOutcome, if_neg hc] at h
          exact absurd h (by simp)
    · rintro ⟨hst, rfl⟩
      rcases hst with rfl | rfl
      · simp [runShellcheckOutcome]
      · simp [runShellcheckOutcome]
  · intro code parsed h0 h1
    simp only [runShellcheckOutcome]
    rw [if_neg (by tauto)]
  · intro parsed
    rfl
  · intro st inp e cmd cmdDecls hreason hcache hsan hrun
    rw [commandSection, if_neg (by rw [hreason]; intro h; cases h), hcache]
    rw [runChecks, hsan, hrun]
    simp [hcache]

/-- Witness for C5 at a concrete input: exit code 2 with a sanitizable
section surfaces one error diagnostic naming the code at the keyword span. -/
theorem c5_witness :
    commandSection ⟨some true, []⟩
        ⟨VisitReason.enter, true, ⟨0, 7⟩, [], some ([], []), [], some 2, none⟩ =
      some ⟨⟨some true, [runErrorDiag (ScError.unexpectedExitCode 2) ⟨0, 7⟩]⟩,
        true, false, false⟩ := by
  have h := c5_run_shellcheck.2.2.2 ⟨some true, []⟩
    ⟨VisitReason.enter, true, ⟨0, 7⟩, [], some ([], []), [], some 2, none⟩
    (ScError.unexpectedExitCode 2) [] [] rfl rfl rfl rfl
  simpa using h

/-- C10: for a placeholder of source length at least 3, the sanitized
substitution `"$var"` has exactly the placeholder's length (the synthetic
variable is three characters shorter, and the two quotes and the dollar
sign restore them), so all following columns on the line are preserved. -/
theorem c10_placeholder_length (len : Nat) (sample : Nat → List Char)
    (hsample : ∀ k, (sample k).length = k) (hlen : 3 ≤ len) :
    (placeholderExpansion (toBashVar len sample)).length = len := by
  simp only [placeholderExpansion, toBashVar, List.length_cons,
    List.length_append, List.length_nil, hsample]
  omega

/-- Witness for C10 at a concrete input: a placeholder of length 7. -/
theorem c10_witness :
    (placeholderExpansion (toBashVar 7 fun k => List.replicate k 'x')).length = 7 :=
  c10_placeholder_length 7 (fun k => List.replicate k 'x')
    (fun k => List.length_replicate k 'x') (by omega)

/-- The emit loop, in closed form: when every kept finding's line is in the
line map, it emits exactly the kept findings, each as a `shellcheck_lint`
diagnostic at the span computed from the line map. -/
theorem processFindings_eq (decls : List (List Char)) (lm : List (Nat × Nat)) :
    ∀ ds : List ShellCheckDiagnostic,
      (∀ d ∈ ds, keepFinding decls d = true → (lookupLine lm d.line).isSome) →
      processFindings decls lm ds =
        some ((ds.filter (keepFinding decls)).map
          fun d => shellcheckLint d (findingSpan ((lookupLine lm d.line).getD 0) d)) := by
  intro ds
  induction ds with
  | nil => intro _; rfl
  | cons d rest ih =>
    intro h
    have hrest := ih fun x hx hkx => h x (List.mem_cons_of_mem d hx) hkx
    by_cases hk : keepFinding decls d = true
    · have hsome := h d (List.mem_cons_self d rest) hk
      obtain ⟨start, hst⟩ := Option.isSome_iff_exists.mp hsome
      rw [processFindings, if_pos hk, hst, hrest]
      simp [List.filter_cons, hk, hst]
    · rw [processFindings, if_neg hk, hrest]
      simp [List.filter_cons, hk]

/-- C7 counterexample: a finding with code 2154 whose message's first token
is "foo" — a REAL task declaration, not a synthetic placeholder — is
DROPPED by the emit step (the diagnostics collection stays empty), whereas
the claim says it is kept and emitted. -/
theorem c7_counterexample :
    firstToken ("foo is referenced but not assigned.".toList) = "foo".toList
    ∧ ("foo".toList ∈ (["foo".toList] : List (List Char)))
    ∧ commandSection ⟨some true, []⟩
        ⟨VisitReason.enter, true, ⟨0, 7⟩, ["foo".toList],
          some ([], ["AbCd".toList]), [(1, 5)], some 1,
          some [⟨1, 1, 1, 2, "warning".toList, 2154,
            "foo is referenced but not assigned.".toList⟩]⟩ =
      some ⟨⟨some true, []⟩, true, false, false⟩ := by
  refine ⟨rfl, by decide, rfl⟩

/-- C7 (amended): the emit step drops a finding exactly when its code is
2154 AND the first whitespace-separated token of its message is in the
declaration set — which contains the synthetic placeholder names AND all
task input/private declarations; every other finding (with its line in the
line map) is kept and emitted as a diagnostic. -/
theorem c7_filter_characterization (decls : List (List Char))
    (lm : List (Nat × Nat)) (ds : List ShellCheckDiagnostic)
    (h : ∀ d ∈ ds, keepFinding decls d = true → (lookupLine lm d.line).isSome) :
    processFindings decls lm ds =
      some ((ds.filter (keepFinding decls)).map
        fun d => shellcheckLint d (findingSpan ((lookupLine lm d.line).getD 0) d))
    ∧ ∀ d : ShellCheckDiagnostic,
        keepFinding decls d = false ↔
          (d.code = SHELLCHECK_REFERENCED_UNASSIGNED ∧
            decls.contains (firstToken d.message) = true) := by
  refine ⟨processFindings_eq decls lm ds h, ?_⟩
  intro d
  simp [keepFinding]

/-- Witness for the amended C7 at a concrete input: the 2154 finding on the
declared name "foo" is filtered out. -/
theorem c7_witness :
    processFindings ["foo".toList] [(1, 5)]
      [⟨1, 1, 1, 2, "warning".toList, 2154,
        "foo is referenced but not assigned.".toList⟩] =
      some (([⟨1, 1, 1, 2, "warning".toList, 2154,
          "foo is referenced but not assigned.".toList⟩].filter
            (keepFinding ["foo".toList])).map
        fun d => shellcheckLint d
          (findingSpan ((lookupLine [(1, 5)] d.line).getD 0) d)) :=
  (c7_filter_characterization ["foo".toList] [(1, 5)]
    [⟨1, 1, 1, 2, "warning".toList, 2154,
      "foo is referenced but not assigned.".toList⟩] (by decide)).1

/-- C8 counterexample: on the very first visit with the executable missing,
the handler emits the missing-tool diagnostic even though sanitization is
impossible — the diagnostics collection does NOT stay unchanged. -/
theorem c8_counterexample :
    (⟨VisitReason.enter, false, ⟨3, 7⟩, [], none, [], none, none⟩
        : VisitInput).sanitizeResult = none
    ∧ commandSection ⟨none, []⟩
        ⟨VisitReason.enter, false, ⟨3, 7⟩, [], none, [], none, none⟩ =
      some ⟨⟨some false, [missingToolDiag ⟨3, 7⟩]⟩, false, true, true⟩
    ∧ ([missingToolDiag ⟨3, 7⟩] : List Diagnostic) ≠ [] := by
  refine ⟨rfl, rfl, by decide⟩

/-- C8 (amended): on a visit whose sanitization returns `None` and which is
not a first visit finding the tool missing (i.e. the once-cell is already
initialized, or the probe succeeds), the handler returns without invoking
the external tool and with the diagnostics collection unchanged. -/
theorem c8_sanitize_none (st : ScState) (inp : VisitInput)
    (hsan : inp.sanitizeResult = none)
    (hinit : st.shellcheckExists = none → inp.programExists = true) :
    ∃ r : StepResult, commandSection st inp = some r ∧ r.invoked = false ∧
      r.state.diagnostics = st.diagnostics := by
  by_cases hexit : inp.reason = VisitReason.exit
  · refine ⟨⟨st, false, false, false⟩, ?_, rfl, rfl⟩
    rw [commandSection, if_pos hexit]
  · rcases hc : st.shellcheckExists with _ | b
    · refine ⟨⟨⟨some true, st.diagnostics⟩, false, true, false⟩, ?_, rfl, rfl⟩
      rw [commandSection, if_neg hexit, hc, if_pos (hinit hc)]
      show runChecks ⟨some true, st.diagnostics⟩ inp true = _
      rw [runChecks, hsan]
    · cases b with
      | false =>
        refine ⟨⟨st, false, false, false⟩, ?_, rfl, rfl⟩
        rw [commandSection, if_neg hexit, hc]
      | true =>
        refine ⟨⟨st, false, false, false⟩, ?_, rfl, rfl⟩
        rw [commandSection, if_neg hexit, hc]
        show runChecks st inp false = _
        rw [runChecks, hsan]

/-- Witness for the amended C8 at a concrete input. -/
theorem c8_witness :
    ∃ r : StepResult,
      commandSection ⟨some true, [missingToolDiag ⟨0, 1⟩]⟩
          ⟨VisitReason.enter, true, ⟨0, 7⟩, [], none, [], none, none⟩ = some r
      ∧ r.invoked = false
      ∧ r.state.diagnostics = (⟨some true, [missingToolDiag ⟨0, 1⟩]⟩ : ScState).diagnostics :=
  c8_sanitize_none ⟨some true, [missingToolDiag ⟨0, 1⟩]⟩
    ⟨VisitReason.enter, true, ⟨0, 7⟩, [], none, [], none, none⟩ rfl
    (fun h => by cases h)

/-- C9 counterexample: a successfully parsed findings list (exit code 1,
valid JSON) whose single finding reports line 2 while the line map only
contains line 1 makes the handler PANIC (the `expect` on the line-map
lookup), modelled as `none` — it does not become a diagnostic. -/
theorem c9_counterexample :
    runShellcheckOutcome (some 1)
        (some [⟨2, 2, 1, 2, "warning".toList, 2000, "x".toList⟩]) =
      Except.ok [⟨2, 2, 1, 2, "warning".toList, 2000, "x".toList⟩]
    ∧ commandSection ⟨some true, []⟩
        ⟨VisitReason.enter, true, ⟨0, 7⟩, [], some ([], []), [(1, 5)], some 1,
          some [⟨2, 2, 1, 2, "warning".toList, 2000, "x".toList⟩]⟩ = none := by
  exact ⟨rfl, rfl⟩

/-- C9 (amended): provided every kept finding's line number is present in
the line map, processing a successfully parsed findings list never panics:
the visit returns normally and each surviving finding becomes a diagnostic
whose span is computed from the line map. -/
theorem c9_no_panic (st : ScState) (inp : VisitInput) (cmd : List Char)
    (cmdDecls : List (List Char)) (ds : List ShellCheckDiagnostic)
    (hreason : inp.reason = VisitReason.enter)
    (hcache : st.shellcheckExists = some true)
    (hsan : inp.sanitizeResult = some (cmd, cmdDecls))
    (hrun : runShellcheckOutcome inp.exitStatus inp.parsedOutput = Except.ok ds)
    (hlines : ∀ d ∈ ds, keepFinding (inp.taskDecls ++ cmdDecls) d = true →
      (lookupLine inp.lineMap d.line).isSome) :
    commandSection st inp =
      some ⟨⟨some true, st.diagnostics ++
          ((ds.filter (keepFinding (inp.taskDecls ++ cmdDecls))).map
            fun d => shellcheckLint d
              (findingSpan ((lookupLine inp.lineMap d.line).getD 0) d))⟩,
        true, false, false⟩ := by
  rw [commandSection, if_neg (by rw [hreason]; intro h; cases h), hcache]
  show runChecks st inp false = _
  rw [runChecks, hsan, hrun]
  simp [hcache, processFindings_eq _ _ ds hlines]

/-- Witness for the amended C9 at a concrete input: one finding on line 1,
present in the line map, is emitted at span `(4 + 1, 3 - 1)`. -/
theorem c9_witness :
    commandSection ⟨some true, []⟩
        ⟨VisitReason.enter, true, ⟨0, 7⟩, [], some ([], []), [(1, 4)], some 1,
          some [⟨1, 1, 1, 3, "warning".toList, 2086, "msg".toList⟩]⟩ =
      some ⟨⟨some true, [] ++
          (([⟨1, 1, 1, 3, "warning".toList, 2086, "msg".toList⟩].filter
              (keepFinding ([] ++ []))).map
            fun d => shellcheckLint d
              (findingSpan ((lookupLine [(1, 4)] d.line).getD 0) d))⟩,
        true, false, false⟩ :=
  c9_no_panic ⟨some true, []⟩
    ⟨VisitReason.enter, true, ⟨0, 7⟩, [], some ([], []), [(1, 4)], some 1,
      some [⟨1, 1, 1, 3, "warning".toList, 2086, "msg".toList⟩]⟩
    [] [] [⟨1, 1, 1, 3, "warning".toList, 2086, "msg".toList⟩]
    rfl rfl rfl rfl (by decide)

/-- The availability-checked tail of the handler can only: append findings,
append the run-error diagnostic, return unchanged, or panic — and it never
probes beyond the flag it was given, never emits the missing-tool
diagnostic, and never touches the once-cell. -/
theorem runChecks_shape (st : ScState) (inp : VisitInput) (pr : Bool) :
    (∃ out, runChecks st inp pr =
      some ⟨⟨st.shellcheckExists, st.diagnostics ++ out⟩, true, pr, false⟩)
    ∨ runChecks st inp pr = some ⟨st, false, pr, false⟩
    ∨ runChecks st inp pr = none := by
  rcases hs : inp.sanitizeResult with _ | ⟨cmd, cmdDecls⟩
  · right; left
    simp [runChecks, hs]
  · cases ho : runShellcheckOutcome inp.exitStatus inp.parsedOutput with
    | ok ds =>
      cases hp : processFindings (inp.taskDecls ++ cmdDecls) inp.lineMap ds with
      | none =>
        right; right
        simp [runChecks, hs, ho, hp]
      | some out =>
        left
        exact ⟨out, by simp [runChecks, hs, ho, hp]⟩
    | error e =>
      left
      exact ⟨[runErrorDiag e inp.keywordSpan], by simp [runChecks, hs, ho]⟩

theorem runChecks_result (st : ScState) (inp : VisitInput) (pr : Bool)
    (r : StepResult) (h : runChecks st inp pr = some r) :
    r.probed = pr ∧ r.emittedMissing = false ∧
      r.state.shellcheckExists = st.shellcheckExists := by
  rcases runChecks_shape st inp pr with ⟨out, heq⟩ | heq | heq
  · rw [heq] at h
    obtain rfl := Option.some.inj h
    exact ⟨rfl, rfl, rfl⟩
  · rw [heq] at h
    obtain rfl := Option.some.inj h
    exact ⟨rfl, rfl, rfl⟩
  · rw [heq] at h
    exact Option.noConfusion h

/-- Once the once-cell is initialized, a visit never probes again, never
emits the missing-tool diagnostic, and leaves the cached value intact. -/
theorem commandSection_initialized (st : ScState) (inp : VisitInput) (b : Bool)
    (r : StepResult) (hb : st.shellcheckExists = some b)
    (h : commandSection st inp = some r) :
    r.probed = false ∧ r.emittedMissing = false ∧
      r.state.shellcheckExists = some b := by
  by_cases hexit : inp.reason = VisitReason.exit
  · rw [commandSection, if_pos hexit] at h
    obtain rfl := Option.some.inj h
    exact ⟨rfl, rfl, hb⟩
  · rw [commandSection, if_neg hexit, hb] at h
    cases b with
    | true =>
      have h2 : runChecks st inp false = some r := h
      have h3 := runChecks_result st inp false r h2
      exact ⟨h3.1, h3.2.1, by rw [h3.2.2, hb]⟩
    | false =>
      have h2 : some (⟨st, false, false, false⟩ : StepResult) = some r := h
      obtain rfl := Option.some.inj h2
      exact ⟨rfl, rfl, hb⟩

/-- After initialization, a whole run of visits performs zero probes and
emits zero missing-tool diagnostics, and the cached value survives. -/
theorem runVisits_initialized :
    ∀ (inputs : List VisitInput) (st : ScState) (b : Bool) (st2 : ScState)
      (p m : Nat),
      st.shellcheckExists = some b →
      runVisits st inputs = some (st2, p, m) →
      p = 0 ∧ m = 0 ∧ st2.shellcheckExists = some b := by
  intro inputs
  induction inputs with
  | nil =>
    intro st b st2 p m hb h
    simp only [runVisits, Option.some.injEq, Prod.mk.injEq] at h
    obtain ⟨rfl, rfl, rfl⟩ := h
    exact ⟨rfl, rfl, hb⟩
  | cons inp rest ih =>
    intro st b st2 p m hb h
    simp only [runVisits] at h
    cases hcs : commandSection st inp with
    | none => rw [hcs] at h; exact absurd h (by simp)
    | some r =>
      rw [hcs] at h
      have h2 : (runVisits r.state rest).map
          (fun out => (out.1, (if r.probed then 1 else 0) + out.2.1,
            (if r.emittedMissing then 1 else 0) + out.2.2)) = some (st2, p, m) := h
      cases hrv : runVisits r.state rest with
      | none => rw [hrv] at h2; exact absurd h2 (by simp)
      | some out =>
        rw [hrv] at h2
        obtain ⟨st3, p3, m3⟩ := out
        simp only [Option.map_some', Option.some.injEq, Prod.mk.injEq] at h2
        obtain ⟨rfl, rfl, rfl⟩ := h2
        obtain ⟨hp, hm, hcache⟩ := commandSection_initialized st inp b r hb hcs
        obtain ⟨hp3, hm3, hc3⟩ := ih r.state b st3 p3 m3 hcache hrv
        exact ⟨by simp [hp, hp3], by simp [hm, hm3], hc3⟩

/-- C6: starting from an uninitialized once-cell, a run of visits probes
exactly once if it contains an enter visit (never more), the cell is
initialized by the first enter visit to that visit's probe result, and the
missing-tool diagnostic is emitted exactly once when that first probe fails
and never otherwise — all later visits neither probe nor emit it. -/
theorem c6_probe_once :
    ∀ (inputs : List VisitInput) (st st2 : ScState) (p m : Nat),
      st.shellcheckExists = none →
      runVisits st inputs = some (st2, p, m) →
      p = (if (firstEnter inputs).isSome then 1 else 0)
      ∧ m = (match firstEnter inputs with
             | some i => if i.programExists then 0 else 1
             | none => 0)
      ∧ st2.shellcheckExists = (firstEnter inputs).map fun i => i.programExists := by
  intro inputs
  induction inputs with
  | nil =>
    intro st st2 p m hnone h
    simp only [runVisits, Option.some.injEq, Prod.mk.injEq] at h
    obtain ⟨rfl, rfl, rfl⟩ := h
    simp [firstEnter, hnone]
  | cons inp rest ih =>
    intro st st2 p m hnone h
    simp only [runVisits] at h
    cases hcs : commandSection st inp with
    | none => rw [hcs] at h; exact absurd h (by simp)
    | some r =>
      rw [hcs] at h
      have h2 : (runVisits r.state rest).map
          (fun out => (out.1, (if r.probed then 1 else 0) + out.2.1,
            (if r.emittedMissing then 1 else 0) + out.2.2)) = some (st2, p, m) := h
      cases hrv : runVisits r.state rest with
      | none => rw [hrv] at h2; exact absurd h2 (by simp)
      | some out =>
        rw [hrv] at h2
        obtain ⟨st3, p3, m3⟩ := out
        simp only [Option.map_some', Option.some.injEq, Prod.mk.injEq] at h2
        obtain ⟨rfl, rfl, rfl⟩ := h2
        by_cases hexit : inp.reason = VisitReason.exit
        · have h2 : commandSection st inp = some ⟨st, false, false, false⟩ := by
            rw [commandSection, if_pos hexit]
          rw [h2] at hcs
          obtain rfl := (Option.some.inj hcs).symm
          obtain ⟨hp3, hm3, hc3⟩ := ih st st3 p3 m3 hnone hrv
          have hfe : firstEnter (inp :: rest) = firstEnter rest := by
            rw [firstEnter, List.find?_cons_of_neg _ (by simp [hexit]), firstEnter]
          rw [hfe]
          exact ⟨by simp [hp3], by simp [hm3], hc3⟩
        · have hre : inp.reason = VisitReason.enter := by
            cases hri : inp.reason
            · rfl
            · exact absurd hri hexit
          have hfe : firstEnter (inp :: rest) = some inp := by
            rw [firstEnter, List.find?_cons_of_pos _ (by simp [hre])]
          rw [hfe]
          by_cases hpe : inp.programExists = true
          · have h2 : commandSection st inp =
                runChecks ⟨some true, st.diagnostics⟩ inp true := by
              rw [commandSection, if_neg hexit, hnone, if_pos hpe]
            rw [h2] at hcs
            obtain ⟨hp, hm, hcache⟩ :=
              runChecks_result ⟨some true, st.diagnostics⟩ inp true r hcs
            obtain ⟨hp3, hm3, hc3⟩ :=
              runVisits_initialized rest r.state true st3 p3 m3 hcache hrv
            exact ⟨by simp [hp, hp3], by simp [hm, hm3, hpe],
              by simp [hc3, hpe]⟩
          · have h2 : commandSection st inp =
                some ⟨⟨some false, st.diagnostics ++ [missingToolDiag inp.keywordSpan]⟩,
                  false, true, true⟩ := by
              rw [commandSection, if_neg hexit, hnone, if_neg hpe]
            rw [h2] at hcs
            obtain rfl := (Option.some.inj hcs).symm
            obtain ⟨hp3, hm3, hc3⟩ :=
              runVisits_initialized rest _ false st3 p3 m3 rfl hrv
            have hpe2 : inp.programExists = false := by
              revert hpe
              cases inp.programExists
              · intro _; rfl
              · intro hx; exact absurd rfl hx
            exact ⟨by simp [hp3], by simp [hm3, hpe2], by simp [hc3, hpe2]⟩

/-- Witness for C6 at a concrete input: two enter visits with the tool
missing — one probe, one missing-tool diagnostic, and the second visit
skips silently. -/
theorem c6_witness :
    (1 : Nat) = (if (firstEnter
        [⟨VisitReason.enter, false, ⟨0, 7⟩, [], none, [], none, none⟩,
         ⟨VisitReason.enter, false, ⟨0, 7⟩, [], none, [], none, none⟩]).isSome
      then 1 else 0)
    ∧ (1 : Nat) = (match firstEnter
        [⟨VisitReason.enter, false, ⟨0, 7⟩, [], none, [], none, none⟩,
         ⟨VisitReason.enter, false, ⟨0, 7⟩, [], none, [], none, none⟩] with
       | some i => if i.programExists then 0 else 1
       | none => 0)
    ∧ (⟨some false, [missingToolDiag ⟨0, 7⟩]⟩ : ScState).shellcheckExists =
      (firstEnter
        [⟨VisitReason.enter, false, ⟨0, 7⟩, [], none, [], none, none⟩,
         ⟨VisitReason.enter, false, ⟨0, 7⟩, [], none, [], none, none⟩]).map
        fun i => i.programExists :=
  c6_probe_once
    [⟨VisitReason.enter, false, ⟨0, 7⟩, [], none, [], none, none⟩,
     ⟨VisitReason.enter, false, ⟨0, 7⟩, [], none, [], none, none⟩]
    ⟨none, []⟩ ⟨some false, [missingToolDiag ⟨0, 7⟩]⟩ 1 1 rfl (by rfl)
